import Mathlib

/-!
Formal model of the three genetic-algorithm operators of this repository:

* `src/BitflipMutation.c`                                              (mutation)
* `src/Recombination operators/Binary representation/NpointCrossover.c` (crossover)
* `src/Selection operators/Binary representation/TournamentSelection.c` (selection)

Modelling conventions
* MATLAB logical matrices are column-major; element `(row, col)` of an
  `m × n` matrix lives at linear index `row + col * m`.  Where aliasing of
  linear indices matters (the crossover output buffer) we model the buffer
  as a total function `Nat → Bool` over linear indices; otherwise a matrix
  is a curried function `Nat → Nat → Bool` (row, column).
* `rand()` is modelled by an explicit stream `rnd : Nat → Nat` of draws,
  consumed in program order; position `pos` in the stream is threaded
  explicitly.  `RAND_MAX` is 32767, the value of the MSVC C runtime the
  source documents as its target compilers.
* C `double` fitness values and the mutation probability are modelled as
  rationals; the only comparisons the source performs on them are exact
  order comparisons, which the rational model reflects.
* Rejection-sampling `while` loops have no a-priori bound, so they are
  modelled with an explicit fuel parameter; `none` means the fuel ran out
  before the loop exited.
* Reads past the end of the `CrossOverPoints` array (which the source can
  perform) return an unspecified value, modelled by an oracle
  `oob : Nat → Int` supplied as a parameter.
-/

namespace GAF

/-- `RAND_MAX` of the MSVC C runtime targeted by the source. -/
def RANDMAX : Nat := 32767

/-- The helper of NpointCrossover.c and TournamentSelection.c:
`int randr(unsigned min, unsigned max) { return min + rand() / (RAND_MAX / (max - min + 1) + 1); }`
applied to one draw `r` of `rand()`. -/
def randr (lo hi r : Nat) : Nat :=
  lo + r / (RANDMAX / (hi - lo + 1) + 1)

/-- `randr` stays inside `[lo, hi]` whenever the raw draw is a genuine
`rand()` value (at most `RAND_MAX`) and the range is nonempty. -/
theorem randr_le (lo hi r : Nat) (hlohi : lo ≤ hi) (hr : r ≤ RANDMAX) :
    randr lo hi r ≤ hi := by
  unfold randr
  have hd : 0 < RANDMAX / (hi - lo + 1) + 1 := Nat.succ_pos _
  have hdiv : r / (RANDMAX / (hi - lo + 1) + 1)
      ≤ RANDMAX / (RANDMAX / (hi - lo + 1) + 1) := Nat.div_le_div_right hr
  have h1 : (hi - lo + 1) * (RANDMAX / (hi - lo + 1)) + RANDMAX % (hi - lo + 1)
      = RANDMAX := Nat.div_add_mod RANDMAX (hi - lo + 1)
  have h2 : RANDMAX % (hi - lo + 1) < hi - lo + 1 :=
    Nat.mod_lt RANDMAX (Nat.succ_pos _)
  have hlt : RANDMAX / (RANDMAX / (hi - lo + 1) + 1) < hi - lo + 1 := by
    rw [Nat.div_lt_iff_lt_mul hd, Nat.mul_succ]
    omega
  omega

/-- `randr` never returns below `lo`. -/
theorem le_randr (lo hi r : Nat) : lo ≤ randr lo hi r := Nat.le_add_right _ _

/-! ### Mutation operator (`BitflipMutation.c`)

The C gateway copies the population into the freshly allocated output and
then runs

```
for (gene = 0; gene < n; gene++)
  for (individual = ElitismNo; individual < m; individual++) {
    RandNr = (double)rand() / RAND_MAX;
    if (RandNr < (*Pm)) { flip MutatedPopulation[individual + gene*m]; }
  }
```

We model the population as a curried matrix `Nat → Nat → Bool`
(row, column) and fold the loop body over the visit order of the two
nested loops, threading the count of `rand()` draws consumed so far. -/

/-- Whether one loop-body draw triggers a flip: `((double)rand())/RAND_MAX < Pm`. -/
def mutTrigger (Pm : ℚ) (r : Nat) : Bool :=
  decide ((r : ℚ) / (RANDMAX : ℚ) < Pm)

/-- Pointwise update of a curried matrix at `(row i, column g)`. -/
def upd2 (f : Nat → Nat → Bool) (i g : Nat) (v : Bool) : Nat → Nat → Bool :=
  fun i' g' => if i' = i ∧ g' = g then v else f i' g'

/-- One iteration of the mutation loop body at visit `(gene, individual)`:
draw `rand()`, flip the cell iff the draw triggers.  The state is the
matrix under construction together with the number of draws consumed. -/
def mutateStep (Pm : ℚ) (rnd : Nat → Nat) (acc : (Nat → Nat → Bool) × Nat)
    (p : Nat × Nat) : (Nat → Nat → Bool) × Nat :=
  let r := rnd acc.2
  (if mutTrigger Pm r then upd2 acc.1 p.2 p.1 (!(acc.1 p.2 p.1)) else acc.1,
   acc.2 + 1)

/-- The visit order of the two nested loops: genes outermost
(`0 ≤ gene < n`), individuals innermost (`ElitismNo ≤ individual < m`). -/
def mutateVisits (m n e : Nat) : List (Nat × Nat) :=
  (List.range n).flatMap fun g => (List.range' e (m - e)).map fun i => (g, i)

/-- The mutation operator: start from a copy of the population and run the
nested loops (`mexFunction` of BitflipMutation.c). -/
def BitflipMutation (pop : Nat → Nat → Bool) (m n e : Nat) (Pm : ℚ)
    (rnd : Nat → Nat) : Nat → Nat → Bool :=
  (((mutateVisits m n e)).foldl (mutateStep Pm rnd) (pop, 0)).1

/-! ### Crossover operator (`NpointCrossover.c`)

The outer `while (GeneratedChild < my)` loop runs exactly `my` iterations
(`GeneratedChild` increments by one per iteration); it is modelled by
structural recursion on the number of children still owed.  The two inner
rejection-sampling `while` loops (distinct second parent, distinct cut
points) are modelled with fuel.  The `my × n` output buffer of
`mxCreateLogicalMatrix` is zero-initialised and column-major; we keep it
as a total function over linear indices so that the aliasing of the
sibling-row writes is reproduced exactly. -/

/-- The parent-rejection loop: `P2 = randr(0, m-1); while (P1 == P2) P2 = randr(0, m-1);`
returns the accepted parent and the next stream position. -/
def pickP2 (m P1 : Nat) (rnd : Nat → Nat) : Nat → Nat → Option (Nat × Nat)
  | _pos, 0 => none
  | pos, fuel + 1 =>
      let P2 := randr 0 (m - 1) (rnd pos)
      if P2 = P1 then pickP2 m P1 rnd (pos + 1) fuel else some (P2, pos + 1)

/-- The distinct-draw rejection loop shared (verbatim, up to variable
names) by the cut-point loop of NpointCrossover.c and the contender loop
of TournamentSelection.c: keep drawing `randr(lo, hi)` and append each
value not already in the accumulated list until `target` values are held. -/
def collectDistinct (lo hi target : Nat) (rnd : Nat → Nat) :
    List Nat → Nat → Nat → Option (List Nat × Nat)
  | chosen, pos, 0 =>
      if chosen.length ≥ target then some (chosen, pos) else none
  | chosen, pos, fuel + 1 =>
      if chosen.length ≥ target then some (chosen, pos)
      else
        let cand := randr lo hi (rnd pos)
        if cand ∈ chosen then
          collectDistinct lo hi target rnd chosen (pos + 1) fuel
        else
          collectDistinct lo hi target rnd (chosen ++ [cand]) (pos + 1) fuel

/-- The `qsort(CrossOverPoints, N, sizeof(int), cmpfunc)` call with the
ascending comparator `*(int*)a - *(int*)b`, modelled by an ascending
sort producing the same sorted permutation. -/
def qsortAsc (l : List Nat) : List Nat := l.insertionSort (· ≤ ·)

/-- Reading `CrossOverPoints[e]`: in bounds this is the `e`-th sorted cut
point; past the `N` allocated entries the C program reads unspecified
heap memory, modelled by the oracle `oob`. -/
def readPts (pts : List Nat) (oob : Nat → Int) (e : Nat) : Int :=
  if h : e < pts.length then (pts.get ⟨e, h⟩ : Int) else oob e

/-- One iteration (one value of `gene`) of the segment-assignment loop of
NpointCrossover.c.  State: the output buffer (linear, column-major), the
running segment index `e`, and the ghost trace of indices at which
`CrossOverPoints` is read.  Per gene the source reads `CrossOverPoints[e]`,
increments `e` if `gene` passed that cut point, then writes the primary
child row `GeneratedChild` and (when `GeneratedChild < my`) the sibling
row `GeneratedChild + 1`, sources chosen by the parity of `e`. -/
def geneStep (pool : Nat → Nat → Bool) (my g P1 P2 : Nat) (pts : List Nat)
    (oob : Nat → Int) (st : (Nat → Bool) × Nat × List Nat) (gene : Nat) :
    (Nat → Bool) × Nat × List Nat :=
  let reads := st.2.2 ++ [st.2.1]
  let e := if (gene : Int) > readPts pts oob st.2.1 then st.2.1 + 1 else st.2.1
  let buf :=
    if e % 2 = 0 then
      let bufA := Function.update st.1 (g + gene * my) (pool P1 gene)
      if g < my then Function.update bufA (g + 1 + gene * my) (pool P2 gene)
      else bufA
    else
      let bufA := Function.update st.1 (g + gene * my) (pool P2 gene)
      if g < my then Function.update bufA (g + 1 + gene * my) (pool P1 gene)
      else bufA
  (buf, e, reads)

/-- The whole segment-assignment loop `for (gene = 0; gene < n; gene++)`
for one crossover event, starting from `e = 0`. -/
def geneLoop (pool : Nat → Nat → Bool) (my g P1 P2 : Nat) (pts : List Nat)
    (oob : Nat → Int) (n : Nat) (buf : Nat → Bool) :
    (Nat → Bool) × Nat × List Nat :=
  (List.range n).foldl (geneStep pool my g P1 P2 pts oob) (buf, 0, [])

/-- The `while (GeneratedChild < my)` loop of NpointCrossover.c.
`cnt` is the number of iterations still owed (`my - GeneratedChild`) and
`g` the current value of `GeneratedChild`.  Each iteration draws `P1`,
rejection-draws `P2 ≠ P1`, rejection-draws `N` distinct cut points, sorts
them, and runs the segment-assignment loop.  Besides the buffer we record
the ghost list of events `(P1, P2, sorted cut points)`. -/
def NpointCrossoverLoop (pool : Nat → Nat → Bool) (m n N my : Nat)
    (rnd : Nat → Nat) (oob : Nat → Int) :
    Nat → Nat → Nat → (Nat → Bool) → List (Nat × Nat × List Nat) → Nat →
      Option ((Nat → Bool) × List (Nat × Nat × List Nat) × Nat)
  | 0, _g, pos, buf, events, _fuel => some (buf, events, pos)
  | cnt + 1, g, pos, buf, events, fuel =>
      let P1 := randr 0 (m - 1) (rnd pos)
      match pickP2 m P1 rnd (pos + 1) fuel with
      | none => none
      | some (P2, pos2) =>
          match collectDistinct 0 (n - 1) N rnd [] pos2 fuel with
          | none => none
          | some (raw, pos3) =>
              let pts := qsortAsc raw
              let buf1 := (geneLoop pool my g P1 P2 pts oob n buf).1
              NpointCrossoverLoop pool m n N my rnd oob cnt (g + 1) pos3 buf1
                (events ++ [(P1, P2, pts)]) fuel

/-- The full crossover operator (`mexFunction` of NpointCrossover.c):
allocate the zero-initialised `my × n` output, validate `N`, then run the
crossover loop.  `N` is a C `int`, so it is modelled as an integer to
express the `N <= 0` check. -/
def NpointCrossover (pool : Nat → Nat → Bool) (m n : Nat) (N : Int)
    (my : Nat) (rnd : Nat → Nat) (oob : Nat → Int) (fuel : Nat) :
    Except String (Option ((Nat → Bool) × List (Nat × Nat × List Nat) × Nat)) :=
  if N > (n : Int) then .error "MATLAB:NpointCrossover:invalidinputs"
  else if N ≤ 0 then .error "MATLAB:NpointCrossover:invalidinputs"
  else .ok (NpointCrossoverLoop pool m n N.toNat my rnd oob my 0 0
    (fun _ => false) [] fuel)

/-! ### Selection operator (`TournamentSelection.c`)

`TourSel` runs `NoSurvivors` tournaments.  Each tournament draws `k`
distinct contender rows from `[Eliterows, m-1]` with the same
rejection-sampling loop as the crossover cut points (`collectDistinct`;
the C loop additionally stores `ContenderFitnessList[Contender] =
Fitness[ContenderIndex]`, i.e. the fitness of a contender is always read
off the fitness vector at its index, which the model does at use sites),
then scans the contender list for the winner, then copies the winner's
fitness and gene row into slot `Tournament` of the outputs.  We record
per tournament the contender list and the `(Winner, WinnerIndex)` pair;
the two output arrays are read off the records by the accessors below. -/

/-- The winner scan of TourSel: `row = 0` initialises
`(Winner, WinnerIndex)` from the first contender, each later row replaces
them iff its fitness is strictly greater. -/
def selWinner (contenders : List Nat) (fit : Nat → ℚ) : ℚ × Nat :=
  match contenders with
  | [] => (0, 0)
  | c :: rest =>
      rest.foldl (fun acc x => if fit x > acc.1 then (fit x, x) else acc)
        (fit c, c)

/-- The tournament loop of `TourSel`: `cnt` tournaments remain; returns
the list of per-tournament records `(ContenderList, Winner, WinnerIndex)`
in tournament order together with the final stream position. -/
def TourSel (k : Nat) (fit : Nat → ℚ) (Eliterows m : Nat)
    (rnd : Nat → Nat) : Nat → Nat → Nat →
      Option (List (List Nat × ℚ × Nat) × Nat)
  | 0, pos, _fuel => some ([], pos)
  | cnt + 1, pos, fuel =>
      match collectDistinct Eliterows (m - 1) k rnd [] pos fuel with
      | none => none
      | some (l, pos2) =>
          match TourSel k fit Eliterows m rnd cnt pos2 fuel with
          | none => none
          | some (rest, pos3) => some ((l, selWinner l fit) :: rest, pos3)

/-- The contender list drawn for tournament `t`. -/
def contendersAt (recs : List (List Nat × ℚ × Nat)) (t : Nat) : List Nat :=
  (recs.getD t ([], 0, 0)).1

/-- `SurvivorFitness[t]`: the recorded `Winner` fitness of tournament `t`. -/
def SurvivorFitnessAt (recs : List (List Nat × ℚ × Nat)) (t : Nat) : ℚ :=
  (recs.getD t ([], 0, 0)).2.1

/-- The recorded `WinnerIndex` of tournament `t`. -/
def winnerIdxAt (recs : List (List Nat × ℚ × Nat)) (t : Nat) : Nat :=
  (recs.getD t ([], 0, 0)).2.2

/-- Row `t` of the `Survivors` output: the row-copy loop
`Survivors[Tournament + NoSurvivors*col] = Population[WinnerIndex + m*col]`. -/
def SurvivorRow (pop : Nat → Nat → Bool) (recs : List (List Nat × ℚ × Nat))
    (t col : Nat) : Bool :=
  pop (winnerIdxAt recs t) col

/-! ### Termination of the rejection-sampling loops -/

/-- A draw stream is fair for the range `[lo, hi]` when beyond every
position every value of the range is eventually produced by `randr`.
This is the hypothesis under which the rejection-sampling loops of the
crossover and selection operators exit. -/
def FairRange (rnd : Nat → Nat) (lo hi : Nat) : Prop :=
  ∀ start v, lo ≤ v → v ≤ hi → ∃ j, start ≤ j ∧ randr lo hi (rnd j) = v

/-- The statement that the crossover call on a `2 × 2` pool with `N = 1`,
`my = 1` never finishes under the all-zero draw sequence: every draw
yields parent row 0, so `while (P1 == P2)` never exits, i.e. the run
returns `none` however much fuel it is given. -/
def crossoverStuckOnZeroDraws : Prop :=
  ∀ fuel, NpointCrossoverLoop (fun _ _ => false) 2 2 1 1 (fun _ => 0)
    (fun _ => 0) 1 0 0 (fun _ => false) [] fuel = none

/-! ### Properties of the mutation operator -/

theorem mutateStep_counter (Pm : ℚ) (rnd : Nat → Nat) :
    ∀ (l : List (Nat × Nat)) (acc : (Nat → Nat → Bool) × Nat),
      (l.foldl (mutateStep Pm rnd) acc).2 = acc.2 + l.length := by
  intro l
  induction l with
  | nil => intro acc; simp
  | cons p t ih =>
      intro acc
      simp only [List.foldl_cons, ih, List.length_cons, mutateStep]
      omega

/-- Effect of the inner individual-loop for a single gene `g`, starting
from matrix `buf` with `c0` draws already consumed. -/
theorem mutate_block (Pm : ℚ) (rnd : Nat → Nat) (g : Nat) :
    ∀ (b s c0 : Nat) (buf : Nat → Nat → Bool) (i' g' : Nat),
      ((((List.range' s b).map fun i => (g, i)).foldl (mutateStep Pm rnd)
          (buf, c0)).1) i' g'
        = if g' = g ∧ s ≤ i' ∧ i' < s + b ∧
              mutTrigger Pm (rnd (c0 + (i' - s))) = true
          then !(buf i' g') else buf i' g' := by
  intro b
  induction b with
  | zero =>
      intro s c0 buf i' g'
      have hF : ¬(g' = g ∧ s ≤ i' ∧ i' < s ∧
          mutTrigger Pm (rnd (c0 + (i' - s))) = true) := by
        rintro ⟨-, h1, h2, -⟩; omega
      simp [hF]
  | succ b ih =>
      intro s c0 buf i' g'
      rw [List.range'_succ, List.map_cons, List.foldl_cons]
      have hstep : mutateStep Pm rnd (buf, c0) (g, s)
          = (if mutTrigger Pm (rnd c0) then upd2 buf s g (!(buf s g)) else buf,
             c0 + 1) := rfl
      rw [hstep, ih (s + 1) (c0 + 1)]
      by_cases hg : g' = g
      · rw [hg]
        by_cases hi : i' = s
        · rw [hi]
          have hF : ¬(s + 1 ≤ s) := by omega
          have hT1 : s < s + (b + 1) := by omega
          simp only [hF, false_and, and_false, if_false, Nat.sub_self,
            Nat.add_zero, Nat.le_refl, hT1, and_true, true_and,
            eq_self_iff_true, if_true]
          by_cases htrig : mutTrigger Pm (rnd c0) = true
          · simp [htrig, upd2]
          · simp [htrig]
        · have hbufX : (if mutTrigger Pm (rnd c0) then
                upd2 buf s g (!(buf s g)) else buf) i' g = buf i' g := by
            by_cases htrig : mutTrigger Pm (rnd c0) = true
            · simp [htrig, upd2, hi]
            · simp [htrig]
          rw [hbufX]
          by_cases hge : s + 1 ≤ i'
          · have harg : c0 + 1 + (i' - (s + 1)) = c0 + (i' - s) := by omega
            rw [harg]
            have hcond : (g = g ∧ s + 1 ≤ i' ∧ i' < s + 1 + b ∧
                  mutTrigger Pm (rnd (c0 + (i' - s))) = true)
                ↔ (g = g ∧ s ≤ i' ∧ i' < s + (b + 1) ∧
                  mutTrigger Pm (rnd (c0 + (i' - s))) = true) := by
              constructor
              · rintro ⟨-, h1, h2, h3⟩; exact ⟨rfl, by omega, by omega, h3⟩
              · rintro ⟨-, h1, h2, h3⟩; exact ⟨rfl, hge, by omega, h3⟩
            exact if_congr hcond rfl rfl
          · have h1 : ¬(s + 1 ≤ i') := hge
            have h2 : ¬(s ≤ i') := by omega
            simp [h1, h2]
      · have hbufX : (if mutTrigger Pm (rnd c0) then
              upd2 buf s g (!(buf s g)) else buf) i' g' = buf i' g' := by
          by_cases htrig : mutTrigger Pm (rnd c0) = true
          · simp [htrig, upd2, hg]
          · simp [htrig]
        rw [hbufX]
        simp [hg]

theorem mutateVisits_succ (m e n : Nat) :
    mutateVisits m (n + 1) e
      = mutateVisits m n e ++ ((List.range' e (m - e)).map fun i => (n, i)) := by
  unfold mutateVisits
  rw [List.range_succ, List.flatMap_append]
  simp

/-- Closed form of the mutation operator: the cell `(i, g)` is flipped iff
it is a visited cell whose (unique) draw triggers; the draw consumed at
cell `(i, g)` is draw number `g * (m - e) + (i - e)`. -/
theorem BitflipMutation_apply (pop : Nat → Nat → Bool) (m e : Nat) (Pm : ℚ)
    (rnd : Nat → Nat) :
    ∀ (n i g : Nat),
      BitflipMutation pop m n e Pm rnd i g
        = if e ≤ i ∧ i < m ∧ g < n ∧
              mutTrigger Pm (rnd (g * (m - e) + (i - e))) = true
          then !(pop i g) else pop i g := by
  have main : ∀ n : Nat,
      ((mutateVisits m n e).foldl (mutateStep Pm rnd) (pop, 0)).2 = n * (m - e)
      ∧ ∀ i g : Nat,
        (((mutateVisits m n e).foldl (mutateStep Pm rnd) (pop, 0)).1) i g
          = if e ≤ i ∧ i < m ∧ g < n ∧
                mutTrigger Pm (rnd (g * (m - e) + (i - e))) = true
            then !(pop i g) else pop i g := by
    intro n
    induction n with
    | zero =>
        refine ⟨by simp [mutateVisits], ?_⟩
        intro i g
        rw [if_neg (by rintro ⟨-, -, h, -⟩; omega)]
        simp [mutateVisits]
    | succ n ih =>
        rw [mutateVisits_succ, List.foldl_append]
        obtain ⟨ihc, ihv⟩ := ih
        set prev := (mutateVisits m n e).foldl (mutateStep Pm rnd) (pop, 0)
          with hprev
        have hpair : prev = (prev.1, n * (m - e)) := by
          rw [← ihc]
        constructor
        · rw [hpair, mutateStep_counter, List.length_map, List.length_range',
            Nat.succ_mul]
        · intro i g
          rw [hpair, mutate_block Pm rnd n (m - e) e (n * (m - e)) prev.1 i g]
          by_cases hg : g = n
          · subst hg
            have hprevval : prev.1 i g = pop i g := by
              rw [ihv i g, if_neg (by rintro ⟨-, -, h, -⟩; omega)]
            rw [hprevval]
            have hiff : (g = g ∧ e ≤ i ∧ i < e + (m - e) ∧
                  mutTrigger Pm (rnd (g * (m - e) + (i - e))) = true)
                ↔ (e ≤ i ∧ i < m ∧ g < g + 1 ∧
                  mutTrigger Pm (rnd (g * (m - e) + (i - e))) = true) := by
              constructor
              · rintro ⟨-, h1, h2, h3⟩; exact ⟨h1, by omega, by omega, h3⟩
              · rintro ⟨h1, h2, -, h3⟩; exact ⟨rfl, h1, by omega, h3⟩
            exact if_congr hiff rfl rfl
          · rw [if_neg (by rintro ⟨h, -⟩; exact hg h), ihv i g]
            have hiff : (e ≤ i ∧ i < m ∧ g < n ∧
                  mutTrigger Pm (rnd (g * (m - e) + (i - e))) = true)
                ↔ (e ≤ i ∧ i < m ∧ g < n + 1 ∧
                  mutTrigger Pm (rnd (g * (m - e) + (i - e))) = true) := by
              constructor
              · rintro ⟨h1, h2, h3, h4⟩; exact ⟨h1, h2, by omega, h4⟩
              · rintro ⟨h1, h2, h3, h4⟩
                exact ⟨h1, h2, by omega, h4⟩
            exact if_congr hiff rfl rfl
  intro n i g
  exact (main n).2 i g

/-- C4: for every population, every `Pm ∈ [0,1]`, every `ElitismNo ∈ [0,m]`
and every sequence of random draws, every row `i < ElitismNo` of the
output of `BitflipMutation` is bit-for-bit equal to row `i` of the input
population. -/
theorem C4_elite_rows_unchanged (pop : Nat → Nat → Bool) (m n e : Nat)
    (Pm : ℚ) (rnd : Nat → Nat) (hPm0 : 0 ≤ Pm) (hPm1 : Pm ≤ 1) (he : e ≤ m)
    (i g : Nat) (hi : i < e) :
    BitflipMutation pop m n e Pm rnd i g = pop i g := by
  rw [BitflipMutation_apply]
  have hF : ¬(e ≤ i ∧ i < m ∧ g < n ∧
      mutTrigger Pm (rnd (g * (m - e) + (i - e))) = true) := by
    rintro ⟨h1, -, -, -⟩; omega
  rw [if_neg hF]

/-- Witness for C4 at a concrete input: population `2 × 1` of ones,
`Pm = 1/2`, `ElitismNo = 1`; row 0 is untouched. -/
theorem C4_witness :
    (0:ℚ) ≤ 1/2 ∧ (1/2:ℚ) ≤ 1 ∧ 1 ≤ 2 ∧ 0 < 1 ∧
      BitflipMutation (fun _ _ => true) 2 1 1 (1/2) (fun _ => 0) 0 0 = true :=
  ⟨by norm_num, by norm_num, by omega, by omega,
   C4_elite_rows_unchanged (fun _ _ => true) 2 1 1 (1/2) (fun _ => 0)
     (by norm_num) (by norm_num) (by omega) 0 0 (by omega)⟩

/-- Counterexample to C5 as stated: with `Pm = 1` the source flips a gene
iff `(double)rand()/RAND_MAX < 1`, and a draw of exactly `RAND_MAX` gives
ratio `1`, so the gene is NOT flipped.  Here: `1 × 1` population `[[0]]`,
`ElitismNo = 0`, `Pm = 1`, every draw equal to `RAND_MAX = 32767`; the
output gene equals the input gene instead of its negation. -/
theorem C5_counterexample :
    BitflipMutation (fun _ _ => false) 1 1 0 1 (fun _ => 32767) 0 0 = false := by
  rw [BitflipMutation_apply]
  have hF : mutTrigger 1 (32767 : Nat) = false := by
    simp only [mutTrigger, decide_eq_false_iff_not, not_lt, RANDMAX]
    norm_num
  simp [hF]

/-- C5 (amended): `Pm = 0` yields output identical to the input for every
draw sequence; `Pm = 1` flips every gene of every row with index
`≥ ElitismNo` for every draw sequence all of whose draws are strictly
below `RAND_MAX` (i.e. whose ratios `rand()/RAND_MAX` lie in `[0,1)`). -/
theorem C5_pm_extremes (pop : Nat → Nat → Bool) (m n e : Nat)
    (rnd : Nat → Nat) :
    (∀ i g, BitflipMutation pop m n e 0 rnd i g = pop i g)
    ∧ ((∀ j, rnd j < RANDMAX) → ∀ i g, e ≤ i → i < m → g < n →
        BitflipMutation pop m n e 1 rnd i g = !(pop i g)) := by
  constructor
  · intro i g
    rw [BitflipMutation_apply]
    have hF : ¬(e ≤ i ∧ i < m ∧ g < n ∧
        mutTrigger 0 (rnd (g * (m - e) + (i - e))) = true) := by
      rintro ⟨-, -, -, h⟩
      have : ((rnd (g * (m - e) + (i - e)) : ℚ) / (RANDMAX : ℚ) < 0) := by
        simpa [mutTrigger] using h
      have hnn : (0:ℚ) ≤ (rnd (g * (m - e) + (i - e)) : ℚ) / (RANDMAX : ℚ) := by
        apply div_nonneg (Nat.cast_nonneg _) (Nat.cast_nonneg _)
      linarith
    rw [if_neg hF]
  · intro hb i g h1 h2 h3
    rw [BitflipMutation_apply]
    have hT : mutTrigger 1 (rnd (g * (m - e) + (i - e))) = true := by
      have hr := hb (g * (m - e) + (i - e))
      simp only [mutTrigger, decide_eq_true_eq]
      rw [div_lt_one (by norm_num [RANDMAX])]
      exact_mod_cast hr
    simp [h1, h2, h3, hT]

/-- Witness for C5 (amended) at a concrete input: `1 × 1` population
`[[1]]`, all draws `0 < RAND_MAX`; `Pm = 0` leaves the gene, `Pm = 1`
flips it. -/
theorem C5_witness :
    (∀ j : Nat, (fun _ : Nat => 0) j < RANDMAX)
    ∧ BitflipMutation (fun _ _ => true) 1 1 0 0 (fun _ => 0) 0 0 = true
    ∧ BitflipMutation (fun _ _ => true) 1 1 0 1 (fun _ => 0) 0 0 = !true :=
  ⟨fun _ => by norm_num [RANDMAX],
   (C5_pm_extremes (fun _ _ => true) 1 1 0 (fun _ => 0)).1 0 0,
   (C5_pm_extremes (fun _ _ => true) 1 1 0 (fun _ => 0)).2
     (fun _ => by norm_num [RANDMAX]) 0 0 (Nat.le_refl 0) (by omega) (by omega)⟩

/-! ### Properties of the rejection-sampling draw and of the sort -/

/-- Invariant of `collectDistinct`: a successful run starting from a
duplicate-free in-range accumulator returns a duplicate-free in-range
list, of length exactly `target` when the accumulator was not already
over target. -/
theorem collectDistinct_spec (lo hi target : Nat) (rnd : Nat → Nat)
    (hb : ∀ i, rnd i ≤ RANDMAX) (hlohi : lo ≤ hi) :
    ∀ (fuel : Nat) (chosen : List Nat) (pos : Nat) (l : List Nat) (pos2 : Nat),
      collectDistinct lo hi target rnd chosen pos fuel = some (l, pos2) →
      chosen.Nodup → (∀ x ∈ chosen, lo ≤ x ∧ x ≤ hi) →
      l.Nodup ∧ (∀ x ∈ l, lo ≤ x ∧ x ≤ hi)
        ∧ (chosen.length ≤ target → l.length = target) := by
  intro fuel
  induction fuel with
  | zero =>
      intro chosen pos l pos2 h hnd hbd
      by_cases hlen : chosen.length ≥ target
      · simp only [collectDistinct, if_pos hlen, Option.some.injEq,
          Prod.mk.injEq] at h
        obtain ⟨rfl, rfl⟩ := h
        exact ⟨hnd, hbd, fun hle => by omega⟩
      · simp [collectDistinct, hlen] at h
  | succ fuel ih =>
      intro chosen pos l pos2 h hnd hbd
      by_cases hlen : chosen.length ≥ target
      · simp only [collectDistinct, if_pos hlen, Option.some.injEq,
          Prod.mk.injEq] at h
        obtain ⟨rfl, rfl⟩ := h
        exact ⟨hnd, hbd, fun hle => by omega⟩
      · simp only [collectDistinct, if_neg hlen] at h
        by_cases hmem : randr lo hi (rnd pos) ∈ chosen
        · rw [if_pos hmem] at h
          exact ih chosen (pos + 1) l pos2 h hnd hbd
        · rw [if_neg hmem] at h
          have hnd2 : (chosen ++ [randr lo hi (rnd pos)]).Nodup := by
            rw [List.nodup_append]
            exact ⟨hnd, List.nodup_singleton _,
              by simpa [List.disjoint_singleton] using hmem⟩
          have hbd2 : ∀ x ∈ chosen ++ [randr lo hi (rnd pos)],
              lo ≤ x ∧ x ≤ hi := by
            intro x hx
            rcases List.mem_append.mp hx with hx | hx
            · exact hbd x hx
            · rcases List.mem_singleton.mp hx with rfl
              exact ⟨le_randr _ _ _, randr_le _ _ _ hlohi (hb pos)⟩
          obtain ⟨h1, h2, h3⟩ := ih _ (pos + 1) l pos2 h hnd2 hbd2
          refine ⟨h1, h2, fun _ => h3 ?_⟩
          simp only [List.length_append, List.length_singleton]
          omega

/-- The modelled `qsort` of a duplicate-free list is strictly ascending,
of the same length, and a rearrangement of its input. -/
theorem qsortAsc_spec (l : List Nat) (hnd : l.Nodup) :
    List.Pairwise (· < ·) (qsortAsc l) ∧ (qsortAsc l).length = l.length
      ∧ ∀ x ∈ qsortAsc l, x ∈ l := by
  have hperm : List.Perm (qsortAsc l) l := List.perm_insertionSort _ l
  have hsorted : List.Pairwise (· ≤ ·) (qsortAsc l) :=
    List.sorted_insertionSort (· ≤ ·) l
  have hnd2 : List.Pairwise (· ≠ ·) (qsortAsc l) := hperm.nodup_iff.mpr hnd
  refine ⟨?_, hperm.length_eq, fun x hx => hperm.mem_iff.mp hx⟩
  exact (hsorted.and hnd2).imp fun h => lt_of_le_of_ne h.1 h.2

/-- Every event recorded by a successful crossover run carries `N`
pairwise-distinct, strictly ascending cut points below `n`. -/
theorem NpointCrossoverLoop_events (pool : Nat → Nat → Bool)
    (m n N my : Nat) (rnd : Nat → Nat) (oob : Nat → Int)
    (hb : ∀ i, rnd i ≤ RANDMAX) (hn : 1 ≤ n) :
    ∀ (cnt g pos : Nat) (buf : Nat → Bool)
      (events : List (Nat × Nat × List Nat)) (fuel : Nat)
      (res : (Nat → Bool) × List (Nat × Nat × List Nat) × Nat),
      NpointCrossoverLoop pool m n N my rnd oob cnt g pos buf events fuel
        = some res →
      (∀ ev ∈ events, (ev.2.2).length = N ∧ List.Pairwise (· < ·) ev.2.2
        ∧ ∀ x ∈ ev.2.2, x < n) →
      ∀ ev ∈ res.2.1, (ev.2.2).length = N ∧ List.Pairwise (· < ·) ev.2.2
        ∧ ∀ x ∈ ev.2.2, x < n := by
  intro cnt
  induction cnt with
  | zero =>
      intro g pos buf events fuel res h hev
      simp only [NpointCrossoverLoop, Option.some.injEq] at h
      rw [← h]
      exact hev
  | succ cnt ih =>
      intro g pos buf events fuel res h hev
      simp only [NpointCrossoverLoop] at h
      cases hp : pickP2 m (randr 0 (m - 1) (rnd pos)) rnd (pos + 1) fuel with
      | none => simp [hp] at h
      | some pr =>
          obtain ⟨P2, pos2⟩ := pr
          simp only [hp] at h
          cases hc : collectDistinct 0 (n - 1) N rnd [] pos2 fuel with
          | none => simp [hc] at h
          | some cr =>
              obtain ⟨raw, pos3⟩ := cr
              simp only [hc] at h
              refine ih (g + 1) pos3 _ _ fuel res h ?_
              intro ev hevmem
              rcases List.mem_append.mp hevmem with hold | hnew
              · exact hev ev hold
              · rcases List.mem_singleton.mp hnew with rfl
                obtain ⟨hnd, hbd, hlen⟩ :=
                  collectDistinct_spec 0 (n - 1) N rnd hb (by omega) fuel []
                    pos2 raw pos3 hc List.nodup_nil (by simp)
                obtain ⟨hpw, hlen2, hmem2⟩ := qsortAsc_spec raw hnd
                refine ⟨by rw [hlen2]; exact hlen (by simp), hpw, ?_⟩
                intro x hx
                have := (hbd x (hmem2 x hx)).2
                omega

/-! ### Claims about the crossover operator -/

/-- C6: `Crossover` raises `InvalidArgument` exactly when `N > n` or
`N ≤ 0`; for every other `N` it raises no error, and with a valid `N` and
`my = 0` it returns the untouched zero-row output having consumed no
randomness (no crossover event is performed). -/
theorem C6_argument_validation (pool : Nat → Nat → Bool) (m n : Nat)
    (N : Int) (my : Nat) (rnd : Nat → Nat) (oob : Nat → Int) (fuel : Nat) :
    ((∃ msg, NpointCrossover pool m n N my rnd oob fuel = .error msg)
      ↔ (N > (n : Int) ∨ N ≤ 0))
    ∧ (¬(N > (n : Int) ∨ N ≤ 0) →
        NpointCrossover pool m n N 0 rnd oob fuel
          = .ok (some (fun _ => false, [], 0))) := by
  constructor
  · constructor
    · rintro ⟨msg, h⟩
      by_contra hcon
      push_neg at hcon
      unfold NpointCrossover at h
      rw [if_neg (by omega), if_neg (by omega)] at h
      exact Except.noConfusion h
    · intro hc
      unfold NpointCrossover
      by_cases h1 : N > (n : Int)
      · rw [if_pos h1]; exact ⟨_, rfl⟩
      · have h2 : N ≤ 0 := by tauto
        rw [if_neg h1, if_pos h2]; exact ⟨_, rfl⟩
  · intro hc
    push_neg at hc
    unfold NpointCrossover
    rw [if_neg (by omega), if_neg (by omega)]
    rfl

/-- Witness for C6: `N = 1` on a `1 × 2` pool is valid, and with `my = 0`
the operator returns the empty result without consuming draws. -/
theorem C6_witness :
    ¬((1 : Int) > ((2 : Nat) : Int) ∨ (1 : Int) ≤ 0)
    ∧ NpointCrossover (fun _ _ => false) 1 2 1 0 (fun _ => 0) (fun _ => 0) 3
        = .ok (some (fun _ => false, [], 0)) :=
  ⟨by norm_num,
   (C6_argument_validation (fun _ _ => false) 1 2 1 0 (fun _ => 0)
      (fun _ => 0) 3).2 (by norm_num)⟩

/-- C7: in every crossover event of a successful run, after the cut-point
draw and sort the `N` cut points are pairwise distinct column indices in
`[0, n)` in strictly ascending order. -/
theorem C7_cut_points_sorted_distinct (pool : Nat → Nat → Bool)
    (m n N my : Nat) (rnd : Nat → Nat) (oob : Nat → Int) (fuel : Nat)
    (events : List (Nat × Nat × List Nat))
    (hrun : Option.map (fun r => r.2.1)
        (NpointCrossoverLoop pool m n N my rnd oob my 0 0 (fun _ => false)
          [] fuel) = some events)
    (hb : ∀ i, rnd i ≤ RANDMAX) (hn : 1 ≤ n) :
    ∀ ev ∈ events, (ev.2.2).length = N ∧ List.Pairwise (· < ·) ev.2.2
      ∧ ∀ x ∈ ev.2.2, x < n := by
  cases hres : NpointCrossoverLoop pool m n N my rnd oob my 0 0
      (fun _ => false) [] fuel with
  | none => rw [hres] at hrun; simp at hrun
  | some res =>
      rw [hres] at hrun
      simp only [Option.map_some', Option.some.injEq] at hrun
      rw [← hrun]
      exact NpointCrossoverLoop_events pool m n N my rnd oob hb hn my 0 0
        (fun _ => false) [] fuel res hres (by simp)

/-- Witness for C7: a concrete `2 × 2` run with `N = 1`, `my = 1` whose
single event has cut points `[0]`. -/
theorem C7_witness :
    Option.map (fun r => r.2.1)
        (NpointCrossoverLoop (fun _ _ => true) 2 2 1 1
          (fun i => if i % 3 = 1 then 16384 else 0) (fun _ => 0)
          1 0 0 (fun _ => false) [] 3) = some [(0, 1, [0])]
    ∧ (∀ i : Nat, (if i % 3 = 1 then 16384 else 0) ≤ RANDMAX)
    ∧ ∀ ev ∈ [((0 : Nat), (1 : Nat), [(0 : Nat)])],
        (ev.2.2).length = 1 ∧ List.Pairwise (· < ·) ev.2.2
          ∧ ∀ x ∈ ev.2.2, x < 2 := by
  refine ⟨by decide, fun i => ?_, ?_⟩
  · by_cases h : i % 3 = 1 <;> simp [h, RANDMAX]
  · exact C7_cut_points_sorted_distinct (fun _ _ => true) 2 2 1 1
      (fun i => if i % 3 = 1 then 16384 else 0) (fun _ => 0) 3 [(0, 1, [0])]
      (by decide) (fun i => by by_cases h : i % 3 = 1 <;> simp [h, RANDMAX])
      (by omega)

/-- C1 fails on the code (code bug): with `m = 2`, `n = 2`, `N = 1`,
`my = 1`, the single loop iteration has `GeneratedChild = 0 < my`, so the
sibling row `GeneratedChild + 1 = 1 = my` is written: at `gene = 1` the
write lands at linear index `1 + 1·my = 2 = my·n`, one past the allocated
`my × n` buffer.  With an all-ones parent pool the initially-false cell at
linear index 2 ends `true`, exhibiting the out-of-allocation write. -/
theorem C1_sibling_write_out_of_allocation :
    Option.map (fun r => (r.1 (1 + 1 * 1), r.2.1))
      (NpointCrossoverLoop (fun _ _ => true) 2 2 1 1
        (fun i => if i % 3 = 1 then 16384 else 0) (fun _ => 0)
        1 0 0 (fun _ => false) [] 3)
      = some (true, [(0, 1, [0])]) := by decide

/-- C2 fails on the code (code bug): with `m = 2`, `n = 2`, `N = 1`,
`my = 2` and the pool whose column 0 is all ones and column 1 all zeros,
both events choose parents rows 0 and 1, yet output element `(0, 1)`
(linear index `0 + 1·my = 2`) ends `true` — a value neither parent has at
column 1 — because the last iteration's sibling writes alias row 0
shifted one column. -/
theorem C2_row0_gene_not_from_parents :
    Option.map (fun r => (r.1 (0 + 1 * 2), r.2.1))
      (NpointCrossoverLoop (fun _ g => decide (g = 0)) 2 2 1 2
        (fun i => if i % 3 = 1 then 16384 else 0) (fun _ => 0)
        2 0 0 (fun _ => false) [] 3)
      = some (true, [(0, 1, [0]), (0, 1, [0])])
    ∧ decide ((1 : Nat) = 0) = false := by decide

/-- C10 fails on the code (code bug): in the segment-assignment loop with
`N = 1`, cut points `[0]` and `n = 4`, the read trace of
`CrossOverPoints[e]` is `[0, 0, 1, 2]`: from `gene = 2` on the source
reads `CrossOverPoints[e]` with `e ≥ N`, i.e. past the `N` allocated
entries. -/
theorem C10_segment_index_reaches_N :
    (geneLoop (fun _ _ => false) 1 0 0 1 [0] (fun _ => 0) 4
        (fun _ => false)).2.2 = [0, 0, 1, 2]
    ∧ ¬(∀ x ∈ (geneLoop (fun _ _ => false) 1 0 0 1 [0] (fun _ => 0) 4
        (fun _ => false)).2.2, x < 1) := by
  constructor <;> decide

/-! ### Properties of the selection operator -/

/-- Invariant of the winner scan seen as a fold: starting from a pair
`(W0, i0)` with `W0 = fit i0`, the running pair always holds the fitness
of its own index, never decreases, bounds every scanned fitness, and is
either unchanged or the first scanned entry strictly exceeding everything
scanned before it. -/
theorem selWinner_foldl (fit : Nat → ℚ) :
    ∀ (t : List Nat) (W0 : ℚ) (i0 : Nat), W0 = fit i0 →
      (t.foldl (fun acc x => if fit x > acc.1 then (fit x, x) else acc)
          (W0, i0)).1
        = fit (t.foldl (fun acc x => if fit x > acc.1 then (fit x, x) else acc)
          (W0, i0)).2
      ∧ W0 ≤ (t.foldl (fun acc x => if fit x > acc.1 then (fit x, x) else acc)
          (W0, i0)).1
      ∧ (∀ x ∈ t, fit x ≤ (t.foldl
          (fun acc x => if fit x > acc.1 then (fit x, x) else acc) (W0, i0)).1)
      ∧ ((t.foldl (fun acc x => if fit x > acc.1 then (fit x, x) else acc)
            (W0, i0)) = (W0, i0)
        ∨ ∃ i, ∃ hi : i < t.length,
            (t.foldl (fun acc x => if fit x > acc.1 then (fit x, x) else acc)
              (W0, i0)).2 = t.get ⟨i, hi⟩
            ∧ W0 < (t.foldl
                (fun acc x => if fit x > acc.1 then (fit x, x) else acc)
                (W0, i0)).1
            ∧ ∀ j, ∀ hj : j < t.length, j < i →
                fit (t.get ⟨j, hj⟩) < (t.foldl
                  (fun acc x => if fit x > acc.1 then (fit x, x) else acc)
                  (W0, i0)).1) := by
  intro t
  induction t with
  | nil =>
      intro W0 i0 h0
      exact ⟨h0, le_refl _, by simp, Or.inl rfl⟩
  | cons x t ih =>
      intro W0 i0 h0
      simp only [List.foldl_cons]
      by_cases hgt : fit x > W0
      · rw [if_pos hgt]
        obtain ⟨ih1, ih2, ih3, ih4⟩ := ih (fit x) x rfl
        refine ⟨ih1, le_trans (le_of_lt hgt) ih2, ?_, ?_⟩
        · intro y hy
          rcases List.mem_cons.mp hy with rfl | hy
          · exact ih2
          · exact ih3 y hy
        · rcases ih4 with heq | ⟨i, hi, hr2, hlt, hth⟩
          · refine Or.inr ⟨0, by simp, ?_, ?_, ?_⟩
            · rw [heq]; rfl
            · rw [heq]; exact hgt
            · intro j hj hj0; omega
          · refine Or.inr ⟨i + 1, by simpa using hi, hr2, lt_trans hgt hlt, ?_⟩
            intro j hj hji
            cases j with
            | zero => exact hlt
            | succ j => exact hth j (by simpa using hj) (by omega)
      · rw [if_neg hgt]
        obtain ⟨ih1, ih2, ih3, ih4⟩ := ih W0 i0 h0
        refine ⟨ih1, ih2, ?_, ?_⟩
        · intro y hy
          rcases List.mem_cons.mp hy with rfl | hy
          · exact le_trans (le_of_not_lt hgt) ih2
          · exact ih3 y hy
        · rcases ih4 with heq | ⟨i, hi, hr2, hlt, hth⟩
          · exact Or.inl heq
          · refine Or.inr ⟨i + 1, by simpa using hi, hr2, hlt, ?_⟩
            intro j hj hji
            cases j with
            | zero => exact lt_of_le_of_lt (le_of_not_lt hgt) hlt
            | succ j => exact hth j (by simpa using hj) (by omega)

/-- The winner scan of a nonempty contender list returns the fitness of
its returned index, that index is a contender, its fitness bounds every
contender fitness, and it is the earliest contender attaining that
fitness. -/
theorem selWinner_spec (l : List Nat) (fit : Nat → ℚ) (hne : l ≠ []) :
    (selWinner l fit).1 = fit (selWinner l fit).2
    ∧ (selWinner l fit).2 ∈ l
    ∧ (∀ x ∈ l, fit x ≤ (selWinner l fit).1)
    ∧ ∃ i, ∃ hi : i < l.length, (selWinner l fit).2 = l.get ⟨i, hi⟩
        ∧ ∀ j, ∀ hj : j < l.length, j < i →
            fit (l.get ⟨j, hj⟩) < (selWinner l fit).1 := by
  cases l with
  | nil => exact absurd rfl hne
  | cons c rest =>
      obtain ⟨h1, h2, h3, h4⟩ := selWinner_foldl fit rest (fit c) c rfl
      have hsel : selWinner (c :: rest) fit
          = rest.foldl (fun acc x => if fit x > acc.1 then (fit x, x) else acc)
            (fit c, c) := rfl
      rw [hsel]
      rcases h4 with heq | ⟨i, hi, hr2, hlt, hth⟩
      · refine ⟨h1, by rw [heq]; exact List.mem_cons_self c rest, ?_, ?_⟩
        · intro x hx
          rcases List.mem_cons.mp hx with rfl | hx
          · exact h2
          · exact h3 x hx
        · refine ⟨0, by simp, by rw [heq]; rfl, ?_⟩
          intro j hj hj0; omega
      · refine ⟨h1, ?_, ?_, ?_⟩
        · rw [hr2]; exact List.mem_cons_of_mem c (List.get_mem rest i hi)
        · intro x hx
          rcases List.mem_cons.mp hx with rfl | hx
          · exact h2
          · exact h3 x hx
        · refine ⟨i + 1, by simpa using hi, hr2, ?_⟩
          intro j hj hji
          cases j with
          | zero => exact hlt
          | succ j => exact hth j (by simpa using hj) (by omega)

/-- Invariant of a successful `TourSel` run: one record per tournament;
each record's contender list is duplicate-free, has `k` entries, and
lies inside `[Eliterows, m)`; each record's winner pair is the winner
scan of its own contender list. -/
theorem TourSel_spec (k : Nat) (fit : Nat → ℚ) (Eliterows m : Nat)
    (rnd : Nat → Nat) (hb : ∀ i, rnd i ≤ RANDMAX)
    (hem : Eliterows ≤ m - 1) (hm : 1 ≤ m) :
    ∀ (cnt pos fuel : Nat) (recs : List (List Nat × ℚ × Nat)) (pos2 : Nat),
      TourSel k fit Eliterows m rnd cnt pos fuel = some (recs, pos2) →
      recs.length = cnt
      ∧ ∀ tr ∈ recs, tr.1.Nodup ∧ tr.1.length = k
          ∧ (∀ x ∈ tr.1, Eliterows ≤ x ∧ x < m)
          ∧ tr.2 = selWinner tr.1 fit := by
  intro cnt
  induction cnt with
  | zero =>
      intro pos fuel recs pos2 h
      simp only [TourSel, Option.some.injEq, Prod.mk.injEq] at h
      obtain ⟨rfl, rfl⟩ := h
      exact ⟨rfl, by simp⟩
  | succ cnt ih =>
      intro pos fuel recs pos2 h
      simp only [TourSel] at h
      cases hc : collectDistinct Eliterows (m - 1) k rnd [] pos fuel with
      | none => simp [hc] at h
      | some cr =>
          obtain ⟨l, posA⟩ := cr
          simp only [hc] at h
          cases ht : TourSel k fit Eliterows m rnd cnt posA fuel with
          | none => simp [ht] at h
          | some rr =>
              obtain ⟨rest, posB⟩ := rr
              simp only [ht, Option.some.injEq, Prod.mk.injEq] at h
              obtain ⟨rfl, rfl⟩ := h
              obtain ⟨hlen, hrest⟩ := ih posA fuel rest posB ht
              obtain ⟨hnd, hbd, hlenl⟩ :=
                collectDistinct_spec Eliterows (m - 1) k rnd hb hem fuel []
                  pos l posA hc List.nodup_nil (by simp)
              refine ⟨by simp [hlen], ?_⟩
              intro tr htr
              rcases List.mem_cons.mp htr with rfl | htr
              · refine ⟨hnd, hlenl (by simp), ?_, rfl⟩
                intro x hx
                have := hbd x hx
                omega
              · exact hrest tr htr

/-- C8: in every tournament of a successful `Select` run, the `k`
contender row indices are pairwise distinct and all lie in
`[Eliterows, m)`; in particular no contender index is below `Eliterows`. -/
theorem C8_contenders_distinct_nonelite (k : Nat) (fit : Nat → ℚ)
    (Eliterows m : Nat) (rnd : Nat → Nat) (cnt pos fuel : Nat)
    (recs : List (List Nat × ℚ × Nat)) (pos2 : Nat)
    (hrun : TourSel k fit Eliterows m rnd cnt pos fuel = some (recs, pos2))
    (hb : ∀ i, rnd i ≤ RANDMAX) (hem : Eliterows ≤ m - 1) (hm : 1 ≤ m) :
    ∀ tr ∈ recs, tr.1.Nodup ∧ tr.1.length = k
      ∧ ∀ x ∈ tr.1, Eliterows ≤ x ∧ x < m := by
  intro tr htr
  obtain ⟨-, hall⟩ := TourSel_spec k fit Eliterows m rnd hb hem hm cnt pos
    fuel recs pos2 hrun
  obtain ⟨h1, h2, h3, -⟩ := hall tr htr
  exact ⟨h1, h2, h3⟩

/-- Witness for C8: one tournament with `k = 1`, `m = 2`,
`Eliterows = 1`; the only contender drawn is row 1. -/
theorem C8_witness :
    TourSel 1 (fun _ => (0 : ℚ)) 1 2 (fun _ => 0) 1 0 5
        = some ([([1], 0, 1)], 1)
    ∧ ∀ tr ∈ [(([1], 0, 1) : List Nat × ℚ × Nat)],
        tr.1.Nodup ∧ tr.1.length = 1 ∧ ∀ x ∈ tr.1, 1 ≤ x ∧ x < 2 := by
  refine ⟨by decide, ?_⟩
  exact C8_contenders_distinct_nonelite 1 (fun _ => (0 : ℚ)) 1 2 (fun _ => 0)
    1 0 5 [([1], 0, 1)] 1 (by decide) (fun i => by norm_num [RANDMAX])
    (by omega) (by omega)

/-- C3: for every tournament `t` of a successful `Select` run,
`SurvivorFitness[t]` is the fitness of the recorded winner, the
`Survivors` row `t` is the full gene row of that same winner
(index-aligned pairing), the winner is one of the drawn contenders, its
fitness is the maximum over the drawn contenders, and it is the
earliest-drawn contender attaining that maximum. -/
theorem C3_tournament_winner (k : Nat) (fit : Nat → ℚ)
    (pop : Nat → Nat → Bool) (Eliterows m : Nat) (rnd : Nat → Nat)
    (cnt pos fuel : Nat) (recs : List (List Nat × ℚ × Nat)) (pos2 : Nat)
    (hrun : TourSel k fit Eliterows m rnd cnt pos fuel = some (recs, pos2))
    (hb : ∀ i, rnd i ≤ RANDMAX) (hem : Eliterows ≤ m - 1) (hm : 1 ≤ m)
    (hk : 1 ≤ k) (t : Nat) (ht : t < recs.length) :
    SurvivorFitnessAt recs t = fit (winnerIdxAt recs t)
    ∧ (∀ col, SurvivorRow pop recs t col = pop (winnerIdxAt recs t) col)
    ∧ winnerIdxAt recs t ∈ contendersAt recs t
    ∧ (∀ x ∈ contendersAt recs t, fit x ≤ SurvivorFitnessAt recs t)
    ∧ ∃ i, ∃ hi : i < (contendersAt recs t).length,
        winnerIdxAt recs t = (contendersAt recs t).get ⟨i, hi⟩
        ∧ ∀ j, ∀ hj : j < (contendersAt recs t).length, j < i →
            fit ((contendersAt recs t).get ⟨j, hj⟩)
              < SurvivorFitnessAt recs t := by
  obtain ⟨-, hall⟩ := TourSel_spec k fit Eliterows m rnd hb hem hm cnt pos
    fuel recs pos2 hrun
  have hmem : recs.getD t ([], 0, 0) ∈ recs := by
    rw [List.getD_eq_getElem _ _ ht]
    exact List.getElem_mem ht
  obtain ⟨-, hlenl, -, hwin⟩ := hall _ hmem
  have hne : (recs.getD t ([], 0, 0)).1 ≠ [] := by
    intro hnil
    rw [hnil] at hlenl
    simp at hlenl
    omega
  obtain ⟨s1, s2, s3, s4⟩ := selWinner_spec (recs.getD t ([], 0, 0)).1 fit hne
  have hw1 : SurvivorFitnessAt recs t
      = (selWinner (recs.getD t ([], 0, 0)).1 fit).1 := congrArg Prod.fst hwin
  have hw2 : winnerIdxAt recs t
      = (selWinner (recs.getD t ([], 0, 0)).1 fit).2 :=
    congrArg (fun p => p.2) hwin
  refine ⟨?_, fun col => rfl, ?_, ?_, ?_⟩
  · rw [hw1, hw2]; exact s1
  · rw [hw2]; exact s2
  · intro x hx
    rw [hw1]
    exact s3 x hx
  · obtain ⟨i, hi, hr2, hth⟩ := s4
    refine ⟨i, hi, ?_, ?_⟩
    · rw [hw2]; exact hr2
    · intro j hj hji
      rw [hw1]
      exact hth j hj hji

/-- Witness for C3: one tournament, `k = 2`, `m = 2`, `Eliterows = 0`,
fitness `[0, 1]`; contenders `[0, 1]` are drawn and row 1 wins with
fitness 1. -/
theorem C3_witness :
    TourSel 2 (fun i => if i = 1 then (1 : ℚ) else 0) 0 2
        (fun i => if i % 2 = 1 then 16384 else 0) 1 0 5
      = some ([([0, 1], 1, 1)], 2)
    ∧ SurvivorFitnessAt [([0, 1], 1, 1)] 0
        = (fun i => if i = 1 then (1 : ℚ) else 0) (winnerIdxAt [([0, 1], 1, 1)] 0)
    ∧ winnerIdxAt [([0, 1], 1, 1)] 0 ∈ contendersAt [([0, 1], 1, 1)] 0 := by
  refine ⟨by decide, ?_⟩
  have h := C3_tournament_winner 2 (fun i => if i = 1 then (1 : ℚ) else 0)
    (fun _ _ => false) 0 2 (fun i => if i % 2 = 1 then 16384 else 0) 1 0 5
    [([0, 1], 1, 1)] 2 (by decide)
    (fun i => by by_cases h : i % 2 = 1 <;> simp [h, RANDMAX])
    (by omega) (by omega) (by omega) 0 (by simp)
  exact ⟨h.1, h.2.2.1⟩

/-! ### Termination (claim C9) -/

/-- Fuel is only an upper bound on loop steps: a successful `pickP2` run
returns the same result under any larger fuel. -/
theorem pickP2_mono (m P1 : Nat) (rnd : Nat → Nat) :
    ∀ (f : Nat) (pos : Nat) (r : Nat × Nat),
      pickP2 m P1 rnd pos f = some r →
      ∀ f2, f ≤ f2 → pickP2 m P1 rnd pos f2 = some r := by
  intro f
  induction f with
  | zero => intro pos r h; exact absurd h (by simp [pickP2])
  | succ f ih =>
      intro pos r h f2 hf2
      cases f2 with
      | zero => omega
      | succ f2 =>
          by_cases hc : randr 0 (m - 1) (rnd pos) = P1
          · simp only [pickP2, if_pos hc] at h ⊢
            exact ih (pos + 1) r h f2 (by omega)
          · simp only [pickP2, if_neg hc] at h ⊢
            exact h

/-- Fuel monotonicity for the distinct-draw loop. -/
theorem collectDistinct_mono (lo hi target : Nat) (rnd : Nat → Nat) :
    ∀ (f : Nat) (chosen : List Nat) (pos : Nat) (r : List Nat × Nat),
      collectDistinct lo hi target rnd chosen pos f = some r →
      ∀ f2, f ≤ f2 → collectDistinct lo hi target rnd chosen pos f2 = some r := by
  intro f
  induction f with
  | zero =>
      intro chosen pos r h f2 hf2
      by_cases hguard : chosen.length ≥ target
      · simp only [collectDistinct, if_pos hguard] at h
        cases f2 with
        | zero => simp only [collectDistinct, if_pos hguard]; exact h
        | succ f2 => simp only [collectDistinct, if_pos hguard]; exact h
      · simp [collectDistinct, hguard] at h
  | succ f ih =>
      intro chosen pos r h f2 hf2
      by_cases hguard : chosen.length ≥ target
      · simp only [collectDistinct, if_pos hguard] at h
        cases f2 with
        | zero => simp only [collectDistinct, if_pos hguard]; exact h
        | succ f2 => simp only [collectDistinct, if_pos hguard]; exact h
      · cases f2 with
        | zero => omega
        | succ f2 =>
            simp only [collectDistinct, if_neg hguard] at h ⊢
            by_cases hmem : randr lo hi (rnd pos) ∈ chosen
            · simp only [if_pos hmem] at h ⊢
              exact ih chosen (pos + 1) r h f2 (by omega)
            · simp only [if_neg hmem] at h ⊢
              exact ih _ (pos + 1) r h f2 (by omega)

/-- Fuel monotonicity for the crossover loop. -/
theorem NpointCrossoverLoop_mono (pool : Nat → Nat → Bool) (m n N my : Nat)
    (rnd : Nat → Nat) (oob : Nat → Int) :
    ∀ (cnt g pos : Nat) (buf : Nat → Bool)
      (events : List (Nat × Nat × List Nat)) (f : Nat)
      (res : (Nat → Bool) × List (Nat × Nat × List Nat) × Nat),
      NpointCrossoverLoop pool m n N my rnd oob cnt g pos buf events f
        = some res →
      ∀ f2, f ≤ f2 →
        NpointCrossoverLoop pool m n N my rnd oob cnt g pos buf events f2
          = some res := by
  intro cnt
  induction cnt with
  | zero => intro g pos buf events f res h f2 hf2; exact h
  | succ cnt ih =>
      intro g pos buf events f res h f2 hf2
      simp only [NpointCrossoverLoop] at h ⊢
      cases hp : pickP2 m (randr 0 (m - 1) (rnd pos)) rnd (pos + 1) f with
      | none => simp [hp] at h
      | some pr =>
          obtain ⟨P2, pos2⟩ := pr
          simp only [hp] at h
          simp only [pickP2_mono m _ rnd f (pos + 1) (P2, pos2) hp f2 hf2]
          cases hc : collectDistinct 0 (n - 1) N rnd [] pos2 f with
          | none => simp [hc] at h
          | some cr =>
              obtain ⟨raw, pos3⟩ := cr
              simp only [hc] at h
              simp only [collectDistinct_mono 0 (n - 1) N rnd f [] pos2
                (raw, pos3) hc f2 hf2]
              exact ih (g + 1) pos3 _ _ f res h f2 hf2

/-- Fuel monotonicity for the tournament loop. -/
theorem TourSel_mono (k : Nat) (fit : Nat → ℚ) (Eliterows m : Nat)
    (rnd : Nat → Nat) :
    ∀ (cnt pos : Nat) (f : Nat) (res : List (List Nat × ℚ × Nat) × Nat),
      TourSel k fit Eliterows m rnd cnt pos f = some res →
      ∀ f2, f ≤ f2 → TourSel k fit Eliterows m rnd cnt pos f2 = some res := by
  intro cnt
  induction cnt with
  | zero => intro pos f res h f2 hf2; exact h
  | succ cnt ih =>
      intro pos f res h f2 hf2
      simp only [TourSel] at h ⊢
      cases hc : collectDistinct Eliterows (m - 1) k rnd [] pos f with
      | none => simp [hc] at h
      | some cr =>
          obtain ⟨l, pos2⟩ := cr
          simp only [hc] at h
          simp only [collectDistinct_mono Eliterows (m - 1) k rnd f [] pos
            (l, pos2) hc f2 hf2]
          cases ht : TourSel k fit Eliterows m rnd cnt pos2 f with
          | none => simp [ht] at h
          | some rr =>
              simp only [ht] at h
              simp only [ih pos2 f rr ht f2 hf2]
              exact h

/-- The parent-rejection loop exits whenever some draw at or after the
current position maps to a row different from `P1`. -/
theorem pickP2_term_aux (m P1 : Nat) (rnd : Nat → Nat) :
    ∀ (d pos : Nat),
      (∃ j, pos ≤ j ∧ j < pos + d ∧ randr 0 (m - 1) (rnd j) ≠ P1) →
      ∃ f r, pickP2 m P1 rnd pos f = some r := by
  intro d
  induction d with
  | zero => rintro pos ⟨j, h1, h2, -⟩; omega
  | succ d ih =>
      intro pos hex
      by_cases hc : randr 0 (m - 1) (rnd pos) = P1
      · obtain ⟨j, hj1, hj2, hj3⟩ := hex
        have hne : j ≠ pos := fun he => hj3 (by rw [he]; exact hc)
        obtain ⟨f, r, hf⟩ := ih (pos + 1) ⟨j, by omega, by omega, hj3⟩
        exact ⟨f + 1, r, by simp only [pickP2, if_pos hc]; exact hf⟩
      · exact ⟨1, (randr 0 (m - 1) (rnd pos), pos + 1),
          by simp only [pickP2, if_neg hc]⟩

/-- Under a fair draw stream and `m ≥ 2`, the parent-rejection loop
terminates from every position. -/
theorem pickP2_term (m P1 : Nat) (rnd : Nat → Nat) (hm : 2 ≤ m)
    (hfair : FairRange rnd 0 (m - 1)) :
    ∀ pos, ∃ f r, pickP2 m P1 rnd pos f = some r := by
  intro pos
  have hv : ∃ v, v ≤ m - 1 ∧ v ≠ P1 := by
    by_cases hP : P1 = 0
    · exact ⟨1, by omega, by omega⟩
    · exact ⟨0, by omega, fun h => hP h.symm⟩
  obtain ⟨v, hv1, hv2⟩ := hv
  obtain ⟨j, hj1, hj2⟩ := hfair pos v (Nat.zero_le _) hv1
  exact pickP2_term_aux m P1 rnd (j - pos + 1) pos
    ⟨j, hj1, by omega, by rw [hj2]; exact hv2⟩

/-- Key step for the distinct-draw loop: under a fair bounded stream, a
duplicate-free in-range accumulator that still misses values of the range
eventually accepts a fresh value, and by induction on the number of
missing values the loop terminates. -/
theorem collectDistinct_term (lo hi target : Nat) (rnd : Nat → Nat)
    (hb : ∀ i, rnd i ≤ RANDMAX) (hlohi : lo ≤ hi)
    (htar : target ≤ hi + 1 - lo) (hfair : FairRange rnd lo hi) :
    ∀ (K : Nat) (chosen : List Nat) (pos : Nat),
      target - chosen.length ≤ K → chosen.Nodup →
      (∀ x ∈ chosen, lo ≤ x ∧ x ≤ hi) →
      ∃ f r, collectDistinct lo hi target rnd chosen pos f = some r := by
  intro K
  induction K with
  | zero =>
      intro chosen pos hK hnd hbd
      have hguard : chosen.length ≥ target := by omega
      exact ⟨0, (chosen, pos), by simp only [collectDistinct, if_pos hguard]⟩
  | succ K ihK =>
      intro chosen pos hK hnd hbd
      by_cases hguard : chosen.length ≥ target
      · exact ⟨0, (chosen, pos), by simp only [collectDistinct, if_pos hguard]⟩
      · have hfresh : ∃ v, lo ≤ v ∧ v ≤ hi ∧ v ∉ chosen := by
          by_contra hcon
          push_neg at hcon
          have hsub : Finset.Icc lo hi ⊆ chosen.toFinset := by
            intro v hv
            rcases Finset.mem_Icc.mp hv with ⟨h1, h2⟩
            exact List.mem_toFinset.mpr (hcon v h1 h2)
          have hcard := Finset.card_le_card hsub
          rw [Nat.card_Icc] at hcard
          have hle : chosen.toFinset.card ≤ chosen.length :=
            chosen.toFinset_card_le
          omega
        obtain ⟨v, hv1, hv2, hv3⟩ := hfresh
        obtain ⟨j, hj1, hj2⟩ := hfair pos v hv1 hv2
        have inner : ∀ (d pos2 : Nat),
            (∃ j2, pos2 ≤ j2 ∧ j2 < pos2 + d
              ∧ randr lo hi (rnd j2) ∉ chosen) →
            ∃ f r, collectDistinct lo hi target rnd chosen pos2 f = some r := by
          intro d
          induction d with
          | zero => rintro pos2 ⟨j2, h1, h2, -⟩; omega
          | succ d ihd =>
              intro pos2 hex
              by_cases hmem : randr lo hi (rnd pos2) ∈ chosen
              · obtain ⟨j2, hj21, hj22, hj23⟩ := hex
                have hne : j2 ≠ pos2 := fun he => hj23 (by rw [he]; exact hmem)
                obtain ⟨f, r, hf⟩ := ihd (pos2 + 1) ⟨j2, by omega, by omega, hj23⟩
                exact ⟨f + 1, r, by
                  simp only [collectDistinct, if_neg hguard, if_pos hmem]
                  exact hf⟩
              · have hnd2 : (chosen ++ [randr lo hi (rnd pos2)]).Nodup := by
                  rw [List.nodup_append]
                  exact ⟨hnd, List.nodup_singleton _,
                    by simpa [List.disjoint_singleton] using hmem⟩
                have hbd2 : ∀ x ∈ chosen ++ [randr lo hi (rnd pos2)],
                    lo ≤ x ∧ x ≤ hi := by
                  intro x hx
                  rcases List.mem_append.mp hx with hx | hx
                  · exact hbd x hx
                  · rcases List.mem_singleton.mp hx with rfl
                    exact ⟨le_randr _ _ _, randr_le _ _ _ hlohi (hb pos2)⟩
                have hK2 : target - (chosen ++ [randr lo hi (rnd pos2)]).length
                    ≤ K := by
                  simp only [List.length_append, List.length_singleton]
                  omega
                obtain ⟨f, r, hf⟩ := ihK _ (pos2 + 1) hK2 hnd2 hbd2
                exact ⟨f + 1, r, by
                  simp only [collectDistinct, if_neg hguard, if_neg hmem]
                  exact hf⟩
        exact inner (j - pos + 1) pos ⟨j, hj1, by omega, by rw [hj2]; exact hv3⟩

/-- Under fair bounded draws, `m ≥ 2` and `N ≤ n`, the crossover loop
terminates from every state. -/
theorem NpointCrossoverLoop_term (pool : Nat → Nat → Bool) (m n N my : Nat)
    (rnd : Nat → Nat) (oob : Nat → Int) (hm : 2 ≤ m) (hn : 1 ≤ n)
    (hNn : N ≤ n) (hb : ∀ i, rnd i ≤ RANDMAX)
    (hfairP : FairRange rnd 0 (m - 1)) (hfairC : FairRange rnd 0 (n - 1)) :
    ∀ (cnt g pos : Nat) (buf : Nat → Bool)
      (events : List (Nat × Nat × List Nat)),
      ∃ f res, NpointCrossoverLoop pool m n N my rnd oob cnt g pos buf events f
        = some res := by
  intro cnt
  induction cnt with
  | zero => intro g pos buf events; exact ⟨0, (buf, events, pos), rfl⟩
  | succ cnt ih =>
      intro g pos buf events
      obtain ⟨f1, r1, h1⟩ :=
        pickP2_term m (randr 0 (m - 1) (rnd pos)) rnd hm hfairP (pos + 1)
      obtain ⟨P2, pos2⟩ := r1
      obtain ⟨f2, r2, h2⟩ := collectDistinct_term 0 (n - 1) N rnd hb
        (by omega) (by omega) hfairC N [] pos2 (by simp) List.nodup_nil
        (by simp)
      obtain ⟨raw, pos3⟩ := r2
      obtain ⟨f3, res, h3⟩ := ih (g + 1) pos3
        ((geneLoop pool my g (randr 0 (m - 1) (rnd pos)) P2 (qsortAsc raw)
          oob n buf).1)
        (events ++ [(randr 0 (m - 1) (rnd pos), P2, qsortAsc raw)])
      refine ⟨max f1 (max f2 f3), res, ?_⟩
      simp only [NpointCrossoverLoop]
      simp only [pickP2_mono m _ rnd f1 (pos + 1) (P2, pos2) h1 _
        (le_max_left _ _)]
      simp only [collectDistinct_mono 0 (n - 1) N rnd f2 [] pos2 (raw, pos3)
        h2 _ (le_trans (le_max_left _ _) (le_max_right _ _))]
      exact NpointCrossoverLoop_mono pool m n N my rnd oob cnt (g + 1) pos3
        _ _ f3 res h3 _ (le_trans (le_max_right _ _) (le_max_right _ _))

/-- Under fair bounded draws and `k ≤ m - Eliterows`, the tournament loop
terminates from every state. -/
theorem TourSel_term (k : Nat) (fit : Nat → ℚ) (Eliterows m : Nat)
    (rnd : Nat → Nat) (hb : ∀ i, rnd i ≤ RANDMAX) (hem : Eliterows ≤ m - 1)
    (hm : 1 ≤ m) (hk : k ≤ m - Eliterows)
    (hfair : FairRange rnd Eliterows (m - 1)) :
    ∀ (cnt pos : Nat),
      ∃ f res, TourSel k fit Eliterows m rnd cnt pos f = some res := by
  intro cnt
  induction cnt with
  | zero => intro pos; exact ⟨0, ([], pos), rfl⟩
  | succ cnt ih =>
      intro pos
      obtain ⟨f1, r1, h1⟩ := collectDistinct_term Eliterows (m - 1) k rnd hb
        hem (by omega) hfair k [] pos (by simp) List.nodup_nil (by simp)
      obtain ⟨l, pos2⟩ := r1
      obtain ⟨f2, res2, h2⟩ := ih pos2
      obtain ⟨rest, pos3⟩ := res2
      refine ⟨max f1 f2, ((l, selWinner l fit) :: rest, pos3), ?_⟩
      simp only [TourSel]
      simp only [collectDistinct_mono Eliterows (m - 1) k rnd f1 [] pos
        (l, pos2) h1 _ (le_max_left _ _)]
      simp only [TourSel_mono k fit Eliterows m rnd cnt pos2 f2 (rest, pos3)
        h2 _ (le_max_right _ _)]

/-- Counterexample to C9 as stated: the claim quantifies over every
sequence of random draws, but under the all-zero draw sequence (each
`rand()` returning 0) every `randr(0, m-1)` call yields row 0, so in a
crossover call with `m = 2`, `my = 1` the loop `while (P1 == P2)` never
exits: the run returns `none` for every fuel bound.  (The stated
preconditions `1 ≤ N < n`, `my ≥ 0` hold: `N = 1`, `n = 2`, `my = 1`.) -/
theorem C9_counterexample : crossoverStuckOnZeroDraws := by
  have hp : ∀ (f pos : Nat), pickP2 2 0 (fun _ => 0) pos f = none := by
    intro f
    induction f with
    | zero => intro pos; rfl
    | succ f ih =>
        intro pos
        have hc : randr 0 (2 - 1) ((fun _ : Nat => 0) pos) = 0 := by
          simp [randr, RANDMAX]
        simp only [pickP2, hc, if_pos rfl]
        exact ih (pos + 1)
  intro fuel
  have hc : randr 0 (2 - 1) ((fun _ : Nat => 0) 0) = 0 := by
    simp [randr, RANDMAX]
  simp only [NpointCrossoverLoop, hc, hp]

/-- C9 (amended): `Mutate` always terminates (its loops are bounded by the
matrix dimensions; in the model it is a total function).  `Crossover` and
`Select` terminate — some fuel bound makes every rejection-sampling loop
exit — provided the pool has at least two rows (`m ≥ 2`, so a second
distinct parent exists), the stated preconditions hold (`N ≤ n`,
`k ≤ m - Eliterows`, `Eliterows ≤ m - 1`), all draws are genuine `rand()`
values (`≤ RAND_MAX`), and the draw sequence is fair: beyond every
position every value of each needed `randr` range is eventually drawn.
Termination does NOT hold for every draw sequence (see the
counterexample). -/
theorem C9_termination (pool : Nat → Nat → Bool) (m n N my : Nat)
    (oob : Nat → Int) (k : Nat) (fit : Nat → ℚ)
    (Eliterows NoSurvivors : Nat) (rnd : Nat → Nat)
    (hm : 2 ≤ m) (hn : 1 ≤ n) (hNn : N ≤ n) (hk : k ≤ m - Eliterows)
    (hem : Eliterows ≤ m - 1) (hb : ∀ i, rnd i ≤ RANDMAX)
    (hfairP : FairRange rnd 0 (m - 1)) (hfairC : FairRange rnd 0 (n - 1))
    (hfairS : FairRange rnd Eliterows (m - 1)) :
    (∀ pos, ∃ f res, NpointCrossoverLoop pool m n N my rnd oob my 0 pos
        (fun _ => false) [] f = some res)
    ∧ (∀ pos, ∃ f res,
        TourSel k fit Eliterows m rnd NoSurvivors pos f = some res) :=
  ⟨fun pos => NpointCrossoverLoop_term pool m n N my rnd oob hm hn hNn hb
      hfairP hfairC my 0 pos (fun _ => false) [],
   fun pos => TourSel_term k fit Eliterows m rnd hb hem (by omega) hk hfairS
      NoSurvivors pos⟩

/-- Witness for C9 (amended): the alternating stream `0, 16384, 0, …` is
fair for the range `[0, 1]`, and both a `2 × 2` crossover call
(`N = 1`, `my = 1`) and a selection call (`k = 1`, one tournament)
terminate under it. -/
theorem C9_witness :
    FairRange (fun i => if i % 2 = 1 then 16384 else 0) 0 1
    ∧ (∃ f res, NpointCrossoverLoop (fun _ _ => false) 2 2 1 1
        (fun i => if i % 2 = 1 then 16384 else 0) (fun _ => 0) 1 0 0
        (fun _ => false) [] f = some res)
    ∧ (∃ f res, TourSel 1 (fun _ => (0 : ℚ)) 0 2
        (fun i => if i % 2 = 1 then 16384 else 0) 1 0 f = some res) := by
  have hfair : FairRange (fun i => if i % 2 = 1 then 16384 else 0) 0 1 := by
    intro start v h0 h1
    rcases Nat.le_one_iff_eq_zero_or_eq_one.mp h1 with rfl | rfl
    · refine ⟨2 * start, by omega, ?_⟩
      have h2 : (2 * start) % 2 = 0 := by omega
      simp only [h2]
      decide
    · refine ⟨2 * start + 1, by omega, ?_⟩
      have h2 : (2 * start + 1) % 2 = 1 := by omega
      simp only [h2]
      decide
  have hb : ∀ i, (fun i => if i % 2 = 1 then 16384 else 0 : Nat → Nat) i
      ≤ RANDMAX := by
    intro i
    by_cases h : i % 2 = 1 <;> simp [h, RANDMAX]
  have h := C9_termination (fun _ _ => false) 2 2 1 1 (fun _ => 0) 1
    (fun _ => (0 : ℚ)) 0 1 (fun i => if i % 2 = 1 then 16384 else 0)
    (by omega) (by omega) (by omega) (by omega) (by omega) hb hfair hfair hfair
  exact ⟨hfair, h.1 0, h.2 0⟩

end GAF
